import Mathlib

/-
Verification of the daikit core validation engine against its specification.

The embedding follows the source files:
  - packages/core/src/result.ts  : Result, ok, err, isOk, isErr, isResult
  - packages/core/src/schema.ts  : schema (strict / all validation modes),
    getFieldOrThrow, isSchema, SchemaError
  - specification combinators (satisfy, not, and, or), modelled from the
    specification document since specification.ts is not in the source tree.

JavaScript runtime values are modelled explicitly: field mappings become
association lists in declared key order, objects probed by structural type
guards become records of "is the property present / what is its value",
and thrown panics become the error branch of an Except.
-/

namespace Daikit

/-- The Result sum type of result.ts: a discriminated union with an `Ok`
variant holding `value` and an `Err` variant holding `error`. -/
inductive Result (T E : Type) where
  | ok (value : T)
  | err (error : E)
deriving DecidableEq, Repr

/-- Type guard `isOk` of result.ts: true exactly on the `Ok` variant. -/
def isOk {T E : Type} : Result T E → Bool
  | .ok _ => true
  | .err _ => false

/-- Type guard `isErr` of result.ts: true exactly on the `Err` variant. -/
def isErr {T E : Type} : Result T E → Bool
  | .ok _ => false
  | .err _ => true

/-- A candidate runtime value probed by `isResult`.  `isObj` is
`typeof x === "object" && x !== null`; `idProp` and `tagProp` record the
`_id` / `_tag` string properties when present (`none` = property absent
or not the relevant string shape); `hasValue` / `hasError` record whether
a `value` / `error` property is present at all. -/
structure ResultCandidate where
  isObj : Bool
  idProp : Option String
  tagProp : Option String
  hasValue : Bool
  hasError : Bool
deriving DecidableEq, Repr

/-- `isResult` of result.ts (lines 132-141): non-null object, `_id` equal
to `"Result"`, and either `_tag = "Ok"` with a `value` property present or
`_tag = "Err"` with an `error` property present. -/
def isResult (r : ResultCandidate) : Bool :=
  if !r.isObj then false
  else
    let isRes := r.idProp == some "Result"
    let okShape := isRes && (r.tagProp == some "Ok") && r.hasValue
    let errShape := isRes && (r.tagProp == some "Err") && r.hasError
    okShape || errShape

/-- Modelled from the spec: panic.ts is not in the source tree.  A Panic is
a fatal configuration error namespaced by owning module, e.g.
`SCHEMA:FIELD_IS_NOT_VALUE`; `scope` is the module namespace and `key` the
error kind.  Thrown panics are modelled as the error branch of `Except`. -/
structure Panic where
  scope : String
  key : String
deriving DecidableEq, Repr

/-- Modelled from the spec: value.ts (the `Value` factory and its `isValue`
identity check) is not in the source tree.  A schema field entry either is
a genuine Value — for schema evaluation only its wrapped validator function
matters, since calling a Value invokes the wrapped function directly — or
it is some other value failing the `isValue` identity check. -/
inductive FieldEntry (V E : Type) where
  | value (fn : V → Result V E)
  | notValue

/-- `getFieldOrThrow` of schema.ts (lines 214-220): fetch the entry stored
under a field name and throw `SchemaError('FIELD_IS_NOT_VALUE', ...)` when
it does not pass the `isValue` check.  The association-list model hands the
entry itself to this function; the name lookup is the list position. -/
def getFieldOrThrow {V E : Type} (entry : FieldEntry V E) :
    Except Panic (V → Result V E) :=
  match entry with
  | .value fn => .ok fn
  | .notValue => .error ⟨"SCHEMA", "FIELD_IS_NOT_VALUE"⟩

/-- The accumulator of the `reduce` in schema.ts "all" mode (lines 387-391):
a success record, an error record and a `hasErrors` flag. -/
structure AllAcc (V E : Type) where
  result : List (String × V)
  errors : List (String × E)
  hasErrors : Bool

/-- The body of the `reduce` of schema.ts "all" mode (lines 373-392),
instrumented with a trace that appends a field's name each time its
validator function is invoked.  Records are association lists in property
insertion order, matching `Object.keys` enumeration order. -/
def allGo {V E : Type} (value : String → V) :
    List (String × FieldEntry V E) → AllAcc V E → List String →
    Except Panic (AllAcc V E × List String)
  | [], acc, tr => .ok (acc, tr)
  | (name, entry) :: rest, acc, tr =>
    match getFieldOrThrow entry with
    | .error p => .error p
    | .ok fn =>
      match fn (value name) with
      | .ok v =>
          allGo value rest { acc with result := acc.result ++ [(name, v)] } (tr ++ [name])
      | .err e =>
          allGo value rest
            { acc with errors := acc.errors ++ [(name, e)], hasErrors := true }
            (tr ++ [name])

/-- The "all" branch of `schemaValidator` (schema.ts lines 371-395): run the
reduce over every field and return `err(errors)` when `hasErrors` else
`ok(result)`, paired with the invocation trace. -/
def validateAll {V E : Type} (fields : List (String × FieldEntry V E))
    (value : String → V) :
    Except Panic
      (Result (List (String × V)) (List (String × E)) × List String) :=
  match allGo value fields ⟨[], [], false⟩ [] with
  | .error p => .error p
  | .ok (acc, tr) =>
      .ok ((if acc.hasErrors then .err acc.errors else .ok acc.result), tr)

/-- The loop of schema.ts "strict" mode (lines 354-370), instrumented with
the same invocation trace: accumulate successes, and on the first failing
field return `err({ [fieldName]: cause })` immediately. -/
def strictGo {V E : Type} (value : String → V) :
    List (String × FieldEntry V E) → List (String × V) → List String →
    Except Panic
      (Result (List (String × V)) (List (String × E)) × List String)
  | [], acc, tr => .ok (.ok acc, tr)
  | (name, entry) :: rest, acc, tr =>
    match getFieldOrThrow entry with
    | .error p => .error p
    | .ok fn =>
      match fn (value name) with
      | .ok v => strictGo value rest (acc ++ [(name, v)]) (tr ++ [name])
      | .err e => .ok (.err [(name, e)], tr ++ [name])

/-- The "strict" branch of `schemaValidator` (schema.ts lines 354-370). -/
def validateStrict {V E : Type} (fields : List (String × FieldEntry V E))
    (value : String → V) :
    Except Panic
      (Result (List (String × V)) (List (String × E)) × List String) :=
  strictGo value fields [] []

/-- `schemaValidator` of schema.ts (line 353): dispatch on the mode string;
only the exact string "strict" selects the fail-fast branch. -/
def schemaValidator {V E : Type} (fields : List (String × FieldEntry V E))
    (value : String → V) (mode : String) :
    Except Panic
      (Result (List (String × V)) (List (String × E)) × List String) :=
  if mode = "strict" then validateStrict fields value
  else validateAll fields value

/-- `schemaWrapper` of schema.ts (lines 399-401): the callable returned by
`schema`, forwarding to `schemaValidator`; an omitted / undefined mode
(`none`) falls back to the default parameter `'all'`. -/
def schemaWrapper {V E : Type} (fields : List (String × FieldEntry V E))
    (value : String → V) (mode : Option String) :
    Except Panic
      (Result (List (String × V)) (List (String × E)) × List String) :=
  schemaValidator fields value (mode.getD "all")

/-- Lift a mapping of genuine validator functions into schema field
entries (every field passes the `isValue` check). -/
def toFields {V E : Type} (fs : List (String × (V → Result V E))) :
    List (String × FieldEntry V E) :=
  fs.map (fun p => (p.1, FieldEntry.value p.2))

/-- Each field name paired with the outcome of its validator on the
corresponding property of the input object. -/
def evalResults {V E : Type} (fs : List (String × (V → Result V E)))
    (value : String → V) : List (String × Result V E) :=
  fs.map (fun p => (p.1, p.2 (value p.1)))

/-- The succeeding fields, each mapped to its validator's success value. -/
def okEntries {V E : Type} (rs : List (String × Result V E)) :
    List (String × V) :=
  rs.filterMap (fun p => match p.2 with
    | .ok v => some (p.1, v)
    | .err _ => none)

/-- The failing fields, each mapped to its validator's error. -/
def errEntries {V E : Type} (rs : List (String × Result V E)) :
    List (String × E) :=
  rs.filterMap (fun p => match p.2 with
    | .ok _ => none
    | .err e => some (p.1, e))

/-- Unfolding lemma: over genuine value fields the "all" reduce never
panics; it appends every success to the result record, every failure to the
error record, sets `hasErrors` iff some field failed, and its trace visits
every field once in declared order. -/
theorem allGo_eq {V E : Type} (value : String → V)
    (fs : List (String × (V → Result V E))) :
    ∀ (acc : AllAcc V E) (tr : List String),
      allGo value (toFields fs) acc tr =
        Except.ok
          ({ result := acc.result ++ okEntries (evalResults fs value),
             errors := acc.errors ++ errEntries (evalResults fs value),
             hasErrors :=
               acc.hasErrors || !(errEntries (evalResults fs value)).isEmpty },
           tr ++ fs.map Prod.fst) := by
  induction fs with
  | nil =>
      intro acc tr
      simp [toFields, allGo, evalResults, okEntries, errEntries]
  | cons hd tl ih =>
      intro acc tr
      obtain ⟨n, f⟩ := hd
      cases hf : f (value n) with
      | ok v =>
          simp only [toFields, List.map_cons, allGo, getFieldOrThrow, hf]
          rw [toFields] at ih
          rw [ih]
          simp [evalResults, okEntries, errEntries, hf]
      | err e =>
          simp only [toFields, List.map_cons, allGo, getFieldOrThrow, hf]
          rw [toFields] at ih
          rw [ih]
          simp [evalResults, okEntries, errEntries, hf]

/-- C1: in "all" mode the schema call evaluates every field's validator
exactly once in declared order (the trace is exactly the declared key
list), returns `Err` of exactly the failing fields each mapped to its
error when any field fails, and `Ok` of every field mapped to its success
value otherwise. -/
theorem schema_all_mode_totality {V E : Type}
    (fs : List (String × (V → Result V E))) (value : String → V) :
    schemaWrapper (toFields fs) value (some "all") =
      Except.ok
        ((if (errEntries (evalResults fs value)).isEmpty
            then Result.ok (okEntries (evalResults fs value))
            else Result.err (errEntries (evalResults fs value))),
         fs.map Prod.fst) := by
  have h := allGo_eq value fs ⟨[], [], false⟩ []
  simp only [schemaWrapper, Option.getD, schemaValidator]
  rw [if_neg (by decide)]
  unfold validateAll
  rw [h]
  cases hE : (errEntries (evalResults fs value)).isEmpty <;> simp [hE]

/-- Unfolding lemma: the strict loop walks over a prefix of fields whose
validators all succeed, accumulating their successes and tracing each
name, and then continues with the remaining fields. -/
theorem strictGo_ok_front {V E : Type} (value : String → V)
    (fs1 : List (String × (V → Result V E)))
    (h : ∀ p ∈ fs1, isOk (p.2 (value p.1)) = true) :
    ∀ (rest : List (String × (V → Result V E)))
      (acc : List (String × V)) (tr : List String),
      strictGo value (toFields (fs1 ++ rest)) acc tr =
        strictGo value (toFields rest)
          (acc ++ okEntries (evalResults fs1 value)) (tr ++ fs1.map Prod.fst) := by
  induction fs1 with
  | nil =>
      intro rest acc tr
      simp [evalResults, okEntries]
  | cons hd tl ih =>
      intro rest acc tr
      obtain ⟨n, f⟩ := hd
      have hok : isOk (f (value n)) = true := h (n, f) (List.mem_cons_self _ _)
      cases hf : f (value n) with
      | err e => rw [hf] at hok; simp [isOk] at hok
      | ok v =>
          have htl : ∀ p ∈ tl, isOk (p.2 (value p.1)) = true := by
            intro p hp; exact h p (List.mem_cons_of_mem _ hp)
          have hcons : toFields ((n, f) :: (tl ++ rest)) =
              (n, FieldEntry.value f) :: toFields (tl ++ rest) := by
            simp [toFields]
          rw [List.cons_append, hcons]
          simp only [strictGo, getFieldOrThrow, hf]
          rw [ih htl]
          simp [evalResults, okEntries, hf]

/-- C2: in "strict" mode the schema call stops at the first failing field:
when every field before it succeeds, the result is `Err` of a single-key
record mapping that field to its error and the trace stops right there
(later validators are never invoked); and when every field succeeds the
result is `Ok` of all accumulated per-field success values. -/
theorem schema_strict_fail_fast {V E : Type} (value : String → V) :
    (∀ (fs1 fs2 : List (String × (V → Result V E))) (n : String)
        (f : V → Result V E) (e : E),
        (∀ p ∈ fs1, isOk (p.2 (value p.1)) = true) →
        f (value n) = Result.err e →
        schemaWrapper (toFields (fs1 ++ (n, f) :: fs2)) value (some "strict") =
          Except.ok (Result.err [(n, e)], fs1.map Prod.fst ++ [n])) ∧
    (∀ fs : List (String × (V → Result V E)),
        (∀ p ∈ fs, isOk (p.2 (value p.1)) = true) →
        schemaWrapper (toFields fs) value (some "strict") =
          Except.ok (Result.ok (okEntries (evalResults fs value)),
            fs.map Prod.fst)) := by
  constructor
  · intro fs1 fs2 n f e h1 hf
    simp only [schemaWrapper, Option.getD, schemaValidator, if_pos, validateStrict]
    rw [strictGo_ok_front value fs1 h1]
    simp [toFields, strictGo, getFieldOrThrow, hf]
  · intro fs h1
    simp only [schemaWrapper, Option.getD, schemaValidator, if_pos, validateStrict]
    have := strictGo_ok_front value fs h1 [] [] []
    simp only [List.append_nil] at this
    rw [this]
    simp [toFields, strictGo]

/-- The evaluated field results carry exactly the declared field names. -/
theorem evalResults_keys {V E : Type} (fs : List (String × (V → Result V E)))
    (value : String → V) :
    (evalResults fs value).map Prod.fst = fs.map Prod.fst := by
  simp [evalResults]

/-- When no field failed, the success record covers every declared field. -/
theorem okEntries_keys_of_no_err {V E : Type}
    (rs : List (String × Result V E)) (h : errEntries rs = []) :
    (okEntries rs).map Prod.fst = rs.map Prod.fst := by
  induction rs with
  | nil => simp [okEntries]
  | cons hd tl ih =>
      obtain ⟨n, r⟩ := hd
      cases r with
      | ok v =>
          simp only [errEntries, List.filterMap_cons] at h
          simp only [okEntries, List.filterMap_cons, List.map_cons]
          rw [okEntries] at ih
          rw [ih h]
      | err e =>
          simp [errEntries, List.filterMap_cons] at h

/-- Inversion for the strict loop: a successful `Ok` outcome means every
field's validator succeeded and the output extends the accumulator with
exactly the per-field success values. -/
theorem strictGo_ok_inv {V E : Type} (value : String → V) :
    ∀ (fs : List (String × (V → Result V E))) (acc : List (String × V))
      (tr tr2 : List String) (out : List (String × V)),
      strictGo value (toFields fs) acc tr = Except.ok (Result.ok out, tr2) →
      out = acc ++ okEntries (evalResults fs value) ∧
        errEntries (evalResults fs value) = [] := by
  intro fs
  induction fs with
  | nil =>
      intro acc tr tr2 out h
      simp only [toFields, List.map_nil, strictGo, Except.ok.injEq,
        Prod.mk.injEq, Result.ok.injEq] at h
      simp [evalResults, okEntries, errEntries, h.1]
  | cons hd tl ih =>
      intro acc tr tr2 out h
      obtain ⟨n, f⟩ := hd
      cases hf : f (value n) with
      | ok v =>
          simp only [toFields, List.map_cons, strictGo, getFieldOrThrow, hf] at h
          rw [toFields] at ih
          obtain ⟨h1, h2⟩ := ih (acc ++ [(n, v)]) (tr ++ [n]) tr2 out h
          constructor
          · rw [h1]; simp [evalResults, okEntries, hf]
          · simp only [evalResults, List.map_cons, errEntries,
              List.filterMap_cons, hf]
            simp only [errEntries, evalResults] at h2
            exact h2
      | err e =>
          simp [toFields, List.map_cons, strictGo, getFieldOrThrow, hf] at h

/-- C9: whenever the whole-object call succeeds — in any mode — the `Ok`
payload is exactly the record of the declared fields, each mapped to its
validator's success value; its key list is the declared key list, so no
extra input property ever appears. -/
theorem schema_ok_payload_keys {V E : Type}
    (fs : List (String × (V → Result V E))) (value : String → V)
    (mode : Option String) (out : List (String × V)) (tr : List String)
    (h : schemaWrapper (toFields fs) value mode =
      Except.ok (Result.ok out, tr)) :
    out = okEntries (evalResults fs value) ∧
      out.map Prod.fst = fs.map Prod.fst := by
  rw [schemaWrapper, schemaValidator] at h
  by_cases hm : mode.getD "all" = "strict"
  · rw [if_pos hm] at h
    rw [validateStrict] at h
    obtain ⟨h1, h2⟩ := strictGo_ok_inv value fs [] [] tr out h
    rw [List.nil_append] at h1
    refine ⟨h1, ?_⟩
    rw [h1, okEntries_keys_of_no_err _ h2, evalResults_keys]
  · rw [if_neg hm] at h
    rw [validateAll, allGo_eq value fs ⟨[], [], false⟩ []] at h
    simp only [Bool.false_or, List.nil_append] at h
    cases hE : (errEntries (evalResults fs value)).isEmpty with
    | true =>
        simp only [hE, Bool.not_true, Bool.false_eq_true, if_false,
          if_true, Except.ok.injEq, Prod.mk.injEq] at h
        have hout : out = okEntries (evalResults fs value) := by
          have := h.1
          cases this; rfl
        refine ⟨hout, ?_⟩
        have hnil : errEntries (evalResults fs value) = [] :=
          List.isEmpty_iff.mp hE
        rw [hout, okEntries_keys_of_no_err _ hnil, evalResults_keys]
    | false =>
        simp [hE] at h

/-- C10: every mode argument other than the literal string "strict" —
including an omitted / undefined mode — selects the accumulating "all"
branch. -/
theorem schema_mode_defaults_to_all {V E : Type}
    (fields : List (String × FieldEntry V E)) (value : String → V)
    (mode : Option String) (h : mode ≠ some "strict") :
    schemaWrapper fields value mode = validateAll fields value := by
  cases mode with
  | none =>
      rw [schemaWrapper, Option.getD, schemaValidator, if_neg (by decide)]
  | some s =>
      have hs : s ≠ "strict" := by
        intro hs; exact h (by rw [hs])
      rw [schemaWrapper, Option.getD, schemaValidator, if_neg hs]

/-- C3 counterexample: an object carrying the `Result` discriminant, the
tag `"Ok"` and BOTH payload properties (`value` and `error`) is accepted
by `isResult`, because the guard only requires the payload field matching
the tag to be present and never rejects the other one. -/
theorem isResult_accepts_both_payload_fields :
    isResult ⟨true, some "Result", some "Ok", true, true⟩ = true := by
  rfl

/-- C3 (amended): `isResult` rejects any candidate that is not a non-null
object, or misses the `Result` discriminant, or carries neither payload
field; but a candidate with the discriminant, tag `"Ok"` and a `value`
property is accepted even when an `error` property is also present. -/
theorem isResult_structural_guard (r : ResultCandidate) :
    (r.isObj = false → isResult r = false) ∧
    (r.idProp ≠ some "Result" → isResult r = false) ∧
    (r.hasValue = false ∧ r.hasError = false → isResult r = false) ∧
    (r.isObj = true ∧ r.idProp = some "Result" ∧ r.tagProp = some "Ok" ∧
      r.hasValue = true → isResult r = true) := by
  refine ⟨?_, ?_, ?_, ?_⟩
  · intro h; simp [isResult, h]
  · intro h; simp [isResult, h]
  · rintro ⟨h1, h2⟩; simp [isResult, h1, h2]
  · rintro ⟨h1, h2, h3, h4⟩; simp [isResult, h1, h2, h3, h4]

/-- Witness for the amended C3 statement at concrete candidates. -/
theorem isResult_structural_guard_witness :
    isResult ⟨false, some "Result", some "Ok", true, false⟩ = false :=
  (isResult_structural_guard ⟨false, some "Result", some "Ok", true, false⟩).1 rfl

/-- A candidate runtime value probed by `isSchema`: whether it is callable
(`typeof === "function"`), its `_tag` / `_hash` string properties when
present, whether a `_doc` property exists, and its remaining enumerable
properties in insertion order. -/
structure SchemaCandidate (V E : Type) where
  callable : Bool
  tag : Option String
  storedHash : Option String
  docProp : Option (Option String)
  props : List (String × FieldEntry V E)

/-- The recomputation content of `isSchema` (schema.ts lines 482-486): all
enumerable properties whose key is none of the reserved identity fields
`_tag`, `_hash`, `_doc`. -/
def contentProps {V E : Type} (c : SchemaCandidate V E) :
    List (String × FieldEntry V E) :=
  c.props.filter (fun p => p.1 != "_tag" && p.1 != "_hash" && p.1 != "_doc")

/-- The construction tail of `schema` (schema.ts lines 398-419): the
returned wrapper is callable, carries `_tag = 'Schema'`,
`_hash = hash('schema', fields)`, a `_doc` property, and every field as an
enumerable property.  The fingerprint function is a parameter because
hash.ts is not in the source tree (Modelled from the spec: a deterministic
structural fingerprint of a kind label and structural content). -/
def schemaMk {V E : Type}
    (hashFn : String → List (String × FieldEntry V E) → String)
    (doc : Option String) (fields : List (String × FieldEntry V E)) :
    SchemaCandidate V E :=
  { callable := true
    tag := some "Schema"
    storedHash := some (hashFn "schema" fields)
    docProp := some doc
    props := fields }

/-- `isSchema` of schema.ts (lines 472-490): callable, `_tag = 'Schema'`,
stored `_hash` equal to the fingerprint recomputed over the non-reserved
enumerable properties, and a `_doc` property present. -/
def isSchema {V E : Type}
    (hashFn : String → List (String × FieldEntry V E) → String)
    (c : SchemaCandidate V E) : Bool :=
  c.callable && (c.tag == some "Schema") &&
    (match c.storedHash with
     | some h => h == hashFn "schema" (contentProps c)
     | none => false) &&
    c.docProp.isSome

/-- C4: `isSchema` holds of a freshly constructed schema (round-trip), for
any fingerprint function; and any candidate carrying the `Schema` tag
whose stored hash does not match the fingerprint recomputed over its
non-reserved enumerable properties — a forged look-alike — is rejected. -/
theorem isSchema_roundtrip_and_forged {V E : Type}
    (hashFn : String → List (String × FieldEntry V E) → String) :
    (∀ (d : Option String) (fields : List (String × FieldEntry V E)),
        (∀ p ∈ fields, ∃ fn, p.2 = FieldEntry.value fn) →
        (∀ p ∈ fields,
          (p.1 != "_tag" && p.1 != "_hash" && p.1 != "_doc") = true) →
        isSchema hashFn (schemaMk hashFn d fields) = true) ∧
    (∀ c : SchemaCandidate V E, c.tag = some "Schema" →
        (∀ h, c.storedHash = some h →
          h ≠ hashFn "schema" (contentProps c)) →
        isSchema hashFn c = false) := by
  constructor
  · intro _d fields _hgen hres
    simp only [isSchema, schemaMk, contentProps]
    rw [List.filter_eq_self.mpr hres]
    simp
  · intro c htag hne
    cases hsh : c.storedHash with
    | none => simp [isSchema, hsh]
    | some h =>
        have hd : h ≠ hashFn "schema" (contentProps c) := hne h hsh
        simp [isSchema, hsh, hd]

/-- Fingerprint function used by the C4 witness. -/
def c4hash : String → List (String × FieldEntry Nat String) → String :=
  fun _ _ => "h"

/-- Field mapping used by the C4 witness. -/
def c4fields : List (String × FieldEntry Nat String) :=
  [("a", FieldEntry.value (fun v => Result.ok v))]

/-- Forged candidate used by the C4 witness: carries the tag but a stored
hash that cannot match any recomputation. -/
def c4forged : SchemaCandidate Nat String :=
  { callable := true
    tag := some "Schema"
    storedHash := some "zzz"
    docProp := some none
    props := [] }

/-- Witness for C4 at a concrete schema and a concrete forged candidate. -/
theorem isSchema_roundtrip_and_forged_witness :
    isSchema c4hash (schemaMk c4hash none c4fields) = true ∧
    isSchema c4hash c4forged = false := by
  constructor
  · exact (isSchema_roundtrip_and_forged c4hash).1 none c4fields
      (by intro p hp; simp only [c4fields, List.mem_singleton] at hp
          exact ⟨_, by rw [hp]⟩)
      (by intro p hp; simp only [c4fields, List.mem_singleton] at hp
          rw [hp]; rfl)
  · exact (isSchema_roundtrip_and_forged c4hash).2 c4forged rfl
      (by intro h hh
          simp only [c4forged, Option.some.injEq] at hh
          rw [← hh]
          decide)

/-- In "all" mode the reduce visits every field, so a field failing the
`isValue` check always triggers the `FIELD_IS_NOT_VALUE` panic. -/
theorem allGo_panics {V E : Type} (value : String → V) :
    ∀ (fields : List (String × FieldEntry V E)) (acc : AllAcc V E)
      (tr : List String),
      FieldEntry.notValue ∈ fields.map Prod.snd →
      allGo value fields acc tr =
        Except.error ⟨"SCHEMA", "FIELD_IS_NOT_VALUE"⟩ := by
  intro fields
  induction fields with
  | nil => intro acc tr h; simp at h
  | cons hd tl ih =>
      intro acc tr h
      obtain ⟨n, entry⟩ := hd
      cases entry with
      | notValue => simp [allGo, getFieldOrThrow]
      | value fn =>
          have hmem : FieldEntry.notValue ∈ tl.map Prod.snd := by
            simp only [List.map_cons, List.mem_cons] at h
            rcases h with h1 | h1
            · cases h1
            · exact h1
          cases hf : fn (value n) with
          | ok v => simp only [allGo, getFieldOrThrow, hf]; exact ih _ _ hmem
          | err e => simp only [allGo, getFieldOrThrow, hf]; exact ih _ _ hmem

/-- Every entry of the error record produced by the "all" reduce either
was already in the accumulator or comes from a genuine Value field whose
validator failed on the input. -/
theorem allGo_errors_from_values {V E : Type} (value : String → V) :
    ∀ (fields : List (String × FieldEntry V E)) (acc : AllAcc V E)
      (tr : List String) (acc2 : AllAcc V E) (tr2 : List String),
      allGo value fields acc tr = Except.ok (acc2, tr2) →
      ∀ n e, (n, e) ∈ acc2.errors →
        (n, e) ∈ acc.errors ∨
          ∃ fn, (n, FieldEntry.value fn) ∈ fields ∧
            fn (value n) = Result.err e := by
  intro fields
  induction fields with
  | nil =>
      intro acc tr acc2 tr2 h n e hmem
      simp only [allGo, Except.ok.injEq, Prod.mk.injEq] at h
      rw [← h.1] at hmem
      exact Or.inl hmem
  | cons hd tl ih =>
      intro acc tr acc2 tr2 h n e hmem
      obtain ⟨m, entry⟩ := hd
      cases entry with
      | notValue => simp [allGo, getFieldOrThrow] at h
      | value fn =>
          cases hf : fn (value m) with
          | ok v =>
              simp only [allGo, getFieldOrThrow, hf] at h
              rcases ih _ _ _ _ h n e hmem with h1 | ⟨g, hg1, hg2⟩
              · exact Or.inl h1
              · exact Or.inr ⟨g, List.mem_cons_of_mem _ hg1, hg2⟩
          | err e' =>
              simp only [allGo, getFieldOrThrow, hf] at h
              rcases ih _ _ _ _ h n e hmem with h1 | ⟨g, hg1, hg2⟩
              · rcases List.mem_append.mp h1 with h2 | h2
                · exact Or.inl h2
                · simp only [List.mem_singleton, Prod.mk.injEq] at h2
                  refine Or.inr ⟨fn, ?_, ?_⟩
                  · rw [h2.1]; exact List.mem_cons_self _ _
                  · rw [h2.1, h2.2, hf]
              · exact Or.inr ⟨g, List.mem_cons_of_mem _ hg1, hg2⟩

/-- The single-key error record produced by the strict loop comes from a
genuine Value field whose validator failed on the input. -/
theorem strictGo_errors_from_values {V E : Type} (value : String → V) :
    ∀ (fields : List (String × FieldEntry V E)) (acc : List (String × V))
      (tr tr2 : List String) (errs : List (String × E)),
      strictGo value fields acc tr = Except.ok (Result.err errs, tr2) →
      ∀ n e, (n, e) ∈ errs →
        ∃ fn, (n, FieldEntry.value fn) ∈ fields ∧
          fn (value n) = Result.err e := by
  intro fields
  induction fields with
  | nil =>
      intro acc tr tr2 errs h n e hmem
      simp [strictGo] at h
  | cons hd tl ih =>
      intro acc tr tr2 errs h n e hmem
      obtain ⟨m, entry⟩ := hd
      cases entry with
      | notValue => simp [strictGo, getFieldOrThrow] at h
      | value fn =>
          cases hf : fn (value m) with
          | ok v =>
              simp only [strictGo, getFieldOrThrow, hf] at h
              obtain ⟨g, hg1, hg2⟩ := ih _ _ _ _ h n e hmem
              exact ⟨g, List.mem_cons_of_mem _ hg1, hg2⟩
          | err e' =>
              simp only [strictGo, getFieldOrThrow, hf, Except.ok.injEq,
                Prod.mk.injEq, Result.err.injEq] at h
              rw [← h.1] at hmem
              simp only [List.mem_singleton, Prod.mk.injEq] at hmem
              refine ⟨fn, ?_, ?_⟩
              · rw [hmem.1]; exact List.mem_cons_self _ _
              · rw [hmem.1, hmem.2, hf]

/-- The strict loop walks past a leading run of genuine, succeeding Value
fields and then hits the misconfigured entry, raising the panic. -/
theorem strictGo_panics_after_ok_front {V E : Type} (value : String → V) :
    ∀ (pre : List (String × FieldEntry V E)),
      (∀ p ∈ pre, ∃ fn, p.2 = FieldEntry.value fn ∧
        isOk (fn (value p.1)) = true) →
      ∀ (post : List (String × FieldEntry V E)) (n : String)
        (acc : List (String × V)) (tr : List String),
        strictGo value (pre ++ (n, FieldEntry.notValue) :: post) acc tr =
          Except.error ⟨"SCHEMA", "FIELD_IS_NOT_VALUE"⟩ := by
  intro pre
  induction pre with
  | nil =>
      intro _ post n acc tr
      simp [strictGo, getFieldOrThrow]
  | cons hd tl ih =>
      intro hpre post n acc tr
      obtain ⟨m, entry⟩ := hd
      obtain ⟨fn, hfn, hok⟩ := hpre (m, entry) (List.mem_cons_self _ _)
      have hfn' : entry = FieldEntry.value fn := hfn
      subst hfn'
      have htl : ∀ p ∈ tl, ∃ fn, p.2 = FieldEntry.value fn ∧
          isOk (fn (value p.1)) = true := fun p hp =>
        hpre p (List.mem_cons_of_mem _ hp)
      cases hv : fn (value m) with
      | err e => rw [hv] at hok; simp [isOk] at hok
      | ok v =>
          rw [List.cons_append]
          simp only [strictGo, getFieldOrThrow, hv]
          exact ih htl post n _ _

/-- Field mapping with a misconfigured second field, used by the C5
counterexample and witness: field "a" is a genuine Value that always
fails, field "b" does not pass the `isValue` check. -/
def c5fields : List (String × FieldEntry Nat String) :=
  [("a", FieldEntry.value (fun _ => Result.err "E")),
   ("b", FieldEntry.notValue)]

/-- C5 counterexample: invoking a schema containing a non-Value field does
NOT always raise the panic — in "strict" mode an earlier failing field
short-circuits before the misconfigured field is reached and the call
returns an ordinary `Err` instead. -/
theorem schema_misconfig_no_panic_in_strict :
    schemaWrapper c5fields (fun _ => (0 : Nat)) (some "strict") =
      Except.ok (Result.err [("a", "E")], ["a"]) := by
  rfl

/-- C5 (amended): with a field failing the `isValue` check, invoking the
schema in the default ("all") mode raises the `SCHEMA:FIELD_IS_NOT_VALUE`
panic on every input; in "strict" mode the panic is raised whenever every
field before the misconfigured one is a genuine Value whose validator
succeeds (i.e. unless an earlier field fails first); and in no mode is the
misconfiguration itself ever surfaced as a `Result` `Err` — every returned
error entry comes from a genuine Value field whose validator failed. -/
theorem schema_misconfigured_field_panics {V E : Type}
    (fields : List (String × FieldEntry V E)) (value : String → V)
    (hbad : FieldEntry.notValue ∈ fields.map Prod.snd) :
    schemaWrapper fields value none =
      Except.error ⟨"SCHEMA", "FIELD_IS_NOT_VALUE"⟩ ∧
    (∀ (pre post : List (String × FieldEntry V E)) (n : String),
        fields = pre ++ (n, FieldEntry.notValue) :: post →
        (∀ p ∈ pre, ∃ fn, p.2 = FieldEntry.value fn ∧
          isOk (fn (value p.1)) = true) →
        schemaWrapper fields value (some "strict") =
          Except.error ⟨"SCHEMA", "FIELD_IS_NOT_VALUE"⟩) ∧
    (∀ (mode : Option String) (errs : List (String × E)) (tr : List String),
        schemaWrapper fields value mode = Except.ok (Result.err errs, tr) →
        ∀ n e, (n, e) ∈ errs →
          ∃ fn, (n, FieldEntry.value fn) ∈ fields ∧
            fn (value n) = Result.err e) := by
  refine ⟨?_, ?_, ?_⟩
  · rw [schemaWrapper, Option.getD, schemaValidator, if_neg (by decide),
      validateAll, allGo_panics value fields ⟨[], [], false⟩ [] hbad]
  · intro pre post n hsplit hpre
    rw [schemaWrapper, Option.getD, schemaValidator, if_pos rfl,
      validateStrict, hsplit]
    exact strictGo_panics_after_ok_front value pre hpre post n [] []
  · intro mode errs tr h n e hmem
    rw [schemaWrapper, schemaValidator] at h
    by_cases hm : mode.getD "all" = "strict"
    · rw [if_pos hm, validateStrict] at h
      exact strictGo_errors_from_values value fields [] [] tr errs h n e hmem
    · rw [if_neg hm, validateAll] at h
      cases hgo : allGo value fields ⟨[], [], false⟩ [] with
      | error p => rw [hgo] at h; cases h
      | ok res =>
          obtain ⟨acc2, tr2⟩ := res
          rw [hgo] at h
          cases hE : acc2.hasErrors with
          | false => simp [hE] at h
          | true =>
              simp only [hE, if_true, Except.ok.injEq, Prod.mk.injEq,
                Result.err.injEq] at h
              have herrs : (n, e) ∈ acc2.errors := by
                rw [h.1]; exact hmem
              rcases allGo_errors_from_values value fields _ _ _ _ hgo n e
                herrs with h1 | h1
              · simp at h1
              · exact h1

/-- Misconfigured mapping whose first field succeeds, used by the C5
witness for the strict-mode panic conjunct. -/
def c5okfields : List (String × FieldEntry Nat String) :=
  [("a", FieldEntry.value (fun v => Result.ok v)),
   ("b", FieldEntry.notValue)]

/-- Witness for the amended C5 statement: the misconfigured mapping panics
in the default mode, and in strict mode too when the preceding field
succeeds. -/
theorem schema_misconfigured_field_panics_witness :
    (schemaWrapper c5fields (fun _ => (0 : Nat)) none =
      Except.error ⟨"SCHEMA", "FIELD_IS_NOT_VALUE"⟩) ∧
    (schemaWrapper c5okfields (fun _ => (0 : Nat)) (some "strict") =
      Except.error ⟨"SCHEMA", "FIELD_IS_NOT_VALUE"⟩) :=
  ⟨(schema_misconfigured_field_panics c5fields (fun _ => (0 : Nat))
      (by simp [c5fields])).1,
   (schema_misconfigured_field_panics c5okfields (fun _ => (0 : Nat))
      (by simp [c5okfields])).2.1
      [("a", FieldEntry.value (fun v => Result.ok v))] [] "b" rfl
      (by intro p hp
          simp only [List.mem_singleton] at hp
          exact ⟨fun v => Result.ok v, by rw [hp], rfl⟩)⟩

/-- Modelled from the spec: specification.ts is not in the source tree.
A built Specification holds an optional applicability predicate (set by
`when`) and an ordered sequence of rules, each a validator over the domain
type; rule names carry no evaluation semantics and are omitted. -/
structure Specification (T E : Type) where
  whenPred : Option (T → Bool)
  rules : List (T → Result T E)

/-- Modelled from the spec: the rule-chain evaluation of `satisfy` —
evaluate the rules in declared order, short-circuit on the first `Err`
returning it verbatim, return `Ok(input)` when every rule passes.  The
second component counts how many rules were actually invoked. -/
def runRules {T E : Type} : List (T → Result T E) → T → Result T E × Nat
  | [], x => (Result.ok x, 0)
  | r :: rs, x =>
    match r x with
    | .ok _ => let p := runRules rs x; (p.1, p.2 + 1)
    | .err e => (Result.err e, 1)

/-- Modelled from the spec: `satisfy(input)` — when an applicability
predicate is present and false for the input, the specification is
vacuously satisfied and no rule runs; otherwise the rule chain runs. -/
def satisfy {T E : Type} (s : Specification T E) (x : T) :
    Result T E × Nat :=
  match s.whenPred with
  | some p => if p x then runRules s.rules x else (Result.ok x, 0)
  | none => runRules s.rules x

/-- C6: a false applicability predicate yields `Ok(input)` with zero rules
invoked; an applicable specification runs its rules in declared order —
the first failing rule's error is returned verbatim with later rules never
invoked (the invocation count stops right after it), and when every rule
passes the result is `Ok(input)` after invoking all rules. -/
theorem spec_satisfy_evaluation {T E : Type} (s : Specification T E) (x : T) :
    (∀ p, s.whenPred = some p → p x = false → satisfy s x = (Result.ok x, 0)) ∧
    ((s.whenPred = none ∨ ∃ p, s.whenPred = some p ∧ p x = true) →
      ((∀ (pre post : List (T → Result T E)) (r : T → Result T E) (e : E),
          s.rules = pre ++ r :: post →
          (∀ q ∈ pre, isOk (q x) = true) →
          r x = Result.err e →
          satisfy s x = (Result.err e, pre.length + 1)) ∧
        ((∀ q ∈ s.rules, isOk (q x) = true) →
          satisfy s x = (Result.ok x, s.rules.length)))) := by
  have hrun_fail : ∀ (pre : List (T → Result T E)),
      (∀ q ∈ pre, isOk (q x) = true) →
      ∀ (post : List (T → Result T E)) (r : T → Result T E) (e : E),
        r x = Result.err e →
        runRules (pre ++ r :: post) x = (Result.err e, pre.length + 1) := by
    intro pre
    induction pre with
    | nil =>
        intro _ post r e hr
        simp [runRules, hr]
    | cons q qs ih =>
        intro hpre post r e hr
        have hq : isOk (q x) = true := hpre q (List.mem_cons_self _ _)
        cases hqx : q x with
        | err e' => rw [hqx] at hq; simp [isOk] at hq
        | ok v =>
            have hqs : ∀ q' ∈ qs, isOk (q' x) = true := fun q' hq' =>
              hpre q' (List.mem_cons_of_mem _ hq')
            have hrec := ih hqs post r e hr
            simp only [List.cons_append, runRules, hqx, List.append_eq, hrec]
            simp
  have hrun_ok : ∀ (rs : List (T → Result T E)),
      (∀ q ∈ rs, isOk (q x) = true) →
      runRules rs x = (Result.ok x, rs.length) := by
    intro rs
    induction rs with
    | nil => intro _; simp [runRules]
    | cons q qs ih =>
        intro hall
        have hq : isOk (q x) = true := hall q (List.mem_cons_self _ _)
        cases hqx : q x with
        | err e' => rw [hqx] at hq; simp [isOk] at hq
        | ok v =>
            have hqs : ∀ q' ∈ qs, isOk (q' x) = true := fun q' hq' =>
              hall q' (List.mem_cons_of_mem _ hq')
            simp only [runRules, hqx]
            rw [ih hqs]
            simp
  constructor
  · intro p hp hfalse
    simp [satisfy, hp, hfalse]
  · intro happ
    have hsat : satisfy s x = runRules s.rules x := by
      rcases happ with h | ⟨p, hp, htrue⟩
      · simp [satisfy, h]
      · simp [satisfy, hp, htrue]
    constructor
    · intro pre post r e hsplit hpre hr
      rw [hsat, hsplit]
      exact hrun_fail pre hpre post r e hr
    · intro hall
      rw [hsat]
      exact hrun_ok s.rules hall

/-- Witness for C6 at a concrete specification: a false `when` predicate
makes `satisfy` vacuously succeed without invoking the (always failing)
rule. -/
theorem spec_satisfy_evaluation_witness :
    satisfy (Specification.mk (some (fun _ => false))
      [fun _ => Result.err "R"]) (0 : Nat) = (Result.ok 0, 0) :=
  (spec_satisfy_evaluation (E := String)
    (Specification.mk (some (fun _ => false)) [fun _ => Result.err "R"])
    0).1 (fun _ => false) rfl rfl

/-- Modelled from the spec: the `.not(customError)` combinator — the new
specification re-evaluates the operand's `satisfy`; an `Ok` operand makes
the negation fail with the custom error, an `Err` operand makes the
negation succeed with the original input. -/
def notSatisfy {T E E2 : Type} (s : T → Result T E) (customError : E2)
    (x : T) : Result T E2 :=
  match s x with
  | .ok _ => Result.err customError
  | .err _ => Result.ok x

/-- C7: `S.not(E).satisfy(x)` is `Err(E)` exactly when `S.satisfy(x)` is
`Ok`, and is `Ok(x)` (the original input) exactly when `S.satisfy(x)` is
`Err`; the operand itself is a pure function and is unchanged. -/
theorem spec_not_law {T E E2 : Type} (s : T → Result T E) (c : E2) (x : T) :
    (notSatisfy s c x = Result.err c ↔ isOk (s x) = true) ∧
    (notSatisfy s c x = Result.ok x ↔ isErr (s x) = true) := by
  cases hs : s x with
  | ok v => simp [notSatisfy, hs, isOk, isErr]
  | err e => simp [notSatisfy, hs, isOk, isErr]

/-- Modelled from the spec: the `.or(other)` combinator — evaluate the
first operand; on `Ok` return it immediately without evaluating the
second, otherwise return the second operand's result directly.  The
boolean records whether the second operand was evaluated. -/
def orSatisfy {T E : Type} (s1 s2 : T → Result T E) (x : T) :
    Result T E × Bool :=
  match s1 x with
  | .ok v => (Result.ok v, false)
  | .err _ => (s2 x, true)

/-- C8: when the first operand succeeds, `or` returns that `Ok` and the
second operand is never evaluated; when the first fails, `or` returns the
second operand's result directly — so when both fail the error is exactly
the second operand's. -/
theorem spec_or_law {T E : Type} (s1 s2 : T → Result T E) (x : T) :
    (∀ v, s1 x = Result.ok v → orSatisfy s1 s2 x = (Result.ok v, false)) ∧
    (∀ e, s1 x = Result.err e → orSatisfy s1 s2 x = (s2 x, true)) ∧
    (∀ e1 e2, s1 x = Result.err e1 → s2 x = Result.err e2 →
      (orSatisfy s1 s2 x).1 = Result.err e2) := by
  refine ⟨?_, ?_, ?_⟩
  · intro v hv; simp [orSatisfy, hv]
  · intro e he; simp [orSatisfy, he]
  · intro e1 e2 h1 h2; simp [orSatisfy, h1, h2]

/-- Witness for C8 at concrete operands that both fail: the returned
error is the second operand's. -/
theorem spec_or_law_witness :
    orSatisfy (fun _ => Result.err "A") (fun _ => Result.err "B")
      (0 : Nat) = (Result.err "B", true) :=
  (spec_or_law (fun _ => Result.err "A") (fun _ => Result.err "B") 0).2.1
    "A" rfl

/-- Witness for C2: a concrete strict-mode run stopping at the second
field, never reaching the third. -/
theorem schema_strict_fail_fast_witness :
    schemaWrapper
      (toFields ([("a", fun v => Result.ok v)] ++
        ("b", fun _ => Result.err "E") :: [("c", fun v => Result.ok v)]))
      (fun _ => (0 : Nat)) (some "strict") =
      Except.ok (Result.err [("b", "E")], ["a", "b"]) :=
  (schema_strict_fail_fast (fun _ => (0 : Nat))).1
    [("a", fun v => Result.ok v)] [("c", fun v => Result.ok v)] "b"
    (fun _ => Result.err "E") "E"
    (by intro p hp
        simp only [List.mem_singleton] at hp
        rw [hp]; rfl)
    rfl

/-- Field mapping used by the C9 witness. -/
def c9fields : List (String × (Nat → Result Nat String)) :=
  [("a", fun v => Result.ok v)]

/-- Witness for C9: the keys of a concrete successful payload are the
declared field names. -/
theorem schema_ok_payload_keys_witness :
    [("a", (5 : Nat))] = okEntries (evalResults c9fields (fun _ => (5 : Nat))) ∧
    [("a", (5 : Nat))].map Prod.fst = c9fields.map Prod.fst :=
  schema_ok_payload_keys c9fields (fun _ => (5 : Nat)) none [("a", 5)] ["a"] rfl

/-- Field mapping used by the C10 witness. -/
def c10fields : List (String × FieldEntry Nat String) :=
  [("a", FieldEntry.value (fun v => Result.ok v))]

/-- Witness for C10: a mode string other than "strict" selects the
accumulating branch. -/
theorem schema_mode_defaults_to_all_witness :
    schemaWrapper c10fields (fun _ => (0 : Nat)) (some "lenient") =
      validateAll c10fields (fun _ => (0 : Nat)) :=
  schema_mode_defaults_to_all c10fields (fun _ => (0 : Nat))
    (some "lenient") (by simp)

end Daikit
